import Mathlib

/-!
Verification of the mosaic-editor core (src/main.rs).

Shallow embedding of the mosaic transformation engine and the
selection/commit state machine of the image mosaic editor.

* Pixels are RGBA quadruples; an image is a width, a height, and a pixel
  map (`DynamicImage` mirrors the `image::DynamicImage` values used by the
  program; only dimensions and pixel contents are relevant).
* Display- and image-space coordinates are rationals (the program uses
  `f32`; every `f32` value is a rational and the comparisons and
  min/max used by the program are exact, so `ℚ` is a faithful carrier).
* The drag-stop mosaic loop (main.rs lines 141–182) becomes a fold over
  the pixel coordinates in the source's x-major, y-inner order, threading
  the image together with the per-call memoization cache
  (`pixel_cache : HashMap<(u32,u32), Rgba<u8>>`, modelled as a partial map).
-/

/-- An RGBA pixel, as in `image::Rgba<u8>` (channel bounds are irrelevant
to the verified properties, so channels are plain naturals). -/
structure Rgba where
  r : Nat
  g : Nat
  b : Nat
  a : Nat
deriving DecidableEq, Repr

/-- An image value: fixed dimensions plus pixel contents, mirroring the
`image::DynamicImage` interface used by the program (`dimensions`,
`get_pixel`, `put_pixel`). -/
structure DynamicImage where
  width : Nat
  height : Nat
  pix : Nat → Nat → Rgba

/-- `put_pixel x y c`: write one pixel, dimensions unchanged. -/
def DynamicImage.putPixel (img : DynamicImage) (x y : Nat) (c : Rgba) : DynamicImage :=
  { img with pix := fun i j => if i = x ∧ j = y then c else img.pix i j }

/-- The per-call memoization cache `pixel_cache : HashMap<(u32,u32), Rgba<u8>>`,
modelled as a partial map from coordinate pairs to pixels. -/
def Cache : Type := Nat × Nat → Option Rgba

/-- `HashMap::insert`. -/
def Cache.insert (c : Cache) (k : Nat × Nat) (v : Rgba) : Cache :=
  fun k' => if k' = k then some v else c k'

/-- The empty cache (`HashMap::new`). -/
def Cache.empty : Cache := fun _ => none

/-- A point in display space (`egui::Vec2` / `egui::Pos2`): a pair of
rational coordinates. -/
def Pt : Type := ℚ × ℚ

/-- Componentwise minimum, as `egui::Vec2::min`. -/
def Pt.cmin (p q : Pt) : Pt := (min p.1 q.1, min p.2 q.2)

/-- Componentwise maximum, as `egui::Vec2::max`. -/
def Pt.cmax (p q : Pt) : Pt := (max p.1 q.1, max p.2 q.2)

/-- Scalar multiplication `ratio * pos` on points. -/
def Pt.scale (r : ℚ) (p : Pt) : Pt := (r * p.1, r * p.2)

/-- The per-pixel selection test of the mosaic loop (main.rs lines 154–156):
`a = (x,y) − min`, `b = max − (x,y)`, inside iff
`a.x > 0 ∧ a.y > 0 ∧ b.x > 0 ∧ b.y > 0` (strict, boundary excluded).
Here `minp`/`maxp` are already in image space (the program passes
`ratio * min_pos` / `ratio * max_pos`). -/
def insideSel (minp maxp : Pt) (x y : Nat) : Prop :=
  (x : ℚ) - minp.1 > 0 ∧ (y : ℚ) - minp.2 > 0 ∧
    maxp.1 - (x : ℚ) > 0 ∧ maxp.2 - (y : ℚ) > 0

/-- `a − b > 0` is decided as `b < a` (exact on `ℚ`, hence kernel-evaluable). -/
instance (minp maxp : Pt) (x y : Nat) : Decidable (insideSel minp maxp x y) :=
  decidable_of_iff
    (minp.1 < (x : ℚ) ∧ minp.2 < (y : ℚ) ∧ (x : ℚ) < maxp.1 ∧ (y : ℚ) < maxp.2)
    (by unfold insideSel
        rw [gt_iff_lt, gt_iff_lt, gt_iff_lt, gt_iff_lt, sub_pos, sub_pos, sub_pos, sub_pos])

/-- The body of the mosaic double loop (main.rs lines 154–175) for one
pixel `(x, y)`: state is the image being rewritten together with the
memoization cache.  `W`, `H` are the dimensions read once before the loop,
`radius` the mosaic radius, `diameter = radius * 2 + 1`. -/
def mosaicStep (W H radius diameter : Nat) (minp maxp : Pt)
    (s : DynamicImage × Cache) (x y : Nat) : DynamicImage × Cache :=
  if insideSel minp maxp x y then
    if x % diameter ≠ radius ∨ y % diameter ≠ radius then
      let center_x := x - x % diameter + radius
      let center_y := y - y % diameter + radius
      if center_x < W ∧ center_y < H then
        match s.2 (center_x, center_y) with
        | some p => (s.1.putPixel x y p, s.2)
        | none =>
            let p := s.1.pix center_x center_y
            (s.1.putPixel x y p, s.2.insert (center_x, center_y) p)
      else s
    else s
  else s

/-- One iteration of the outer `for x in 0..width` loop: the inner
`for y in 0..height` loop at column `x`. -/
def mosaicCol (W H radius diameter : Nat) (minp maxp : Pt)
    (s : DynamicImage × Cache) (x : Nat) : DynamicImage × Cache :=
  (List.range H).foldl (fun s' y => mosaicStep W H radius diameter minp maxp s' x y) s

/-- The mosaic transformation engine (`apply` in the spec): the drag-stop
recompute of main.rs lines 141–178, with the selection already converted
to image space.  Clones the base image, then runs the double loop
`for x in 0..width { for y in 0..height { … } }` with a fresh cache. -/
def applyMosaic (base : DynamicImage) (minp maxp : Pt) (radius : Nat) :
    DynamicImage :=
  let diameter := radius * 2 + 1
  let W := base.width
  let H := base.height
  ((List.range W).foldl (mosaicCol W H radius diameter minp maxp)
    (base, Cache.empty)).1

/-- The block-center coordinate formula of main.rs lines 158–159:
`center = n − (n % diameter) + radius` (grid anchored at the image origin). -/
def centerCoord (diameter radius n : Nat) : Nat := n - n % diameter + radius

/-- The exact condition under which the loop body overwrites pixel `(x,y)`:
inside the selection, not itself a block-center pixel, and the block's
center in bounds. -/
def writeCond (W H radius diameter : Nat) (minp maxp : Pt) (x y : Nat) : Prop :=
  insideSel minp maxp x y ∧ (x % diameter ≠ radius ∨ y % diameter ≠ radius) ∧
    centerCoord diameter radius x < W ∧ centerCoord diameter radius y < H

instance (W H radius diameter : Nat) (minp maxp : Pt) (x y : Nat) :
    Decidable (writeCond W H radius diameter minp maxp x y) := by
  unfold writeCond; infer_instance

/-! The engine with the panicking pixel accesses surfaced

`image::GenericImageView::get_pixel` and `GenericImage::put_pixel` panic on
out-of-bounds coordinates; the `Checked` variants return `none` exactly
there, so `applyMosaicChecked = some …` states that the loop's panic
branches are unreachable. -/

/-- `get_pixel`, with the bounds panic made explicit. -/
def DynamicImage.getPixelChecked (img : DynamicImage) (x y : Nat) : Option Rgba :=
  if x < img.width ∧ y < img.height then some (img.pix x y) else none

/-- `put_pixel`, with the bounds panic made explicit. -/
def DynamicImage.putPixelChecked (img : DynamicImage) (x y : Nat) (c : Rgba) :
    Option DynamicImage :=
  if x < img.width ∧ y < img.height then some (img.putPixel x y c) else none

/-- The loop body with panicking accesses surfaced in `Option`. -/
def mosaicStepChecked (W H radius diameter : Nat) (minp maxp : Pt)
    (s : DynamicImage × Cache) (x y : Nat) : Option (DynamicImage × Cache) :=
  if insideSel minp maxp x y then
    if x % diameter ≠ radius ∨ y % diameter ≠ radius then
      let center_x := x - x % diameter + radius
      let center_y := y - y % diameter + radius
      if center_x < W ∧ center_y < H then
        match s.2 (center_x, center_y) with
        | some p => (s.1.putPixelChecked x y p).map (fun img => (img, s.2))
        | none =>
            (s.1.getPixelChecked center_x center_y).bind (fun p =>
              (s.1.putPixelChecked x y p).map (fun img =>
                (img, s.2.insert (center_x, center_y) p)))
      else some s
    else some s
  else some s

/-- The inner loop with panicking accesses surfaced. -/
def mosaicColChecked (W H radius diameter : Nat) (minp maxp : Pt)
    (s? : Option (DynamicImage × Cache)) (x : Nat) : Option (DynamicImage × Cache) :=
  (List.range H).foldl
    (fun s'? y => s'?.bind
      (fun s' => mosaicStepChecked W H radius diameter minp maxp s' x y)) s?

/-- The whole engine with panicking accesses surfaced. -/
def applyMosaicChecked (base : DynamicImage) (minp maxp : Pt) (radius : Nat) :
    Option DynamicImage :=
  let diameter := radius * 2 + 1
  let W := base.width
  let H := base.height
  (((List.range W).foldl (mosaicColChecked W H radius diameter minp maxp)
    (some (base, Cache.empty))).map Prod.fst)

/-! The edit state machine (UI event handlers of main.rs) -/

/-- What is being dragged (struct `Area`): drag start and current end
position, in display space relative to the widget's top-left corner. -/
structure Area where
  start_pos : Pt
  end_pos : Pt

/-- The per-image editor state (struct `TargetImage`): the committed image
(`saving_image`), the live preview (`processing_image`), and the current
selection.  The `raw_file_name` and `cached_bytes` fields only feed the
excluded I/O layer (file dialog, codec, redraw) and carry no algorithmic
content, so they are not modelled. -/
structure TargetImage where
  saving_image : DynamicImage
  processing_image : DynamicImage
  selected_area : Option Area

/-- `drag_started` handler (main.rs lines 123–130): the selection starts as
the degenerate rectangle at the pointer position. -/
def dragStarted (p : Pt) (t : TargetImage) : TargetImage :=
  { t with selected_area := some ⟨p, p⟩ }

/-- `dragged` handler (main.rs lines 131–136): move the end corner; no-op
when no selection is active. -/
def dragged (p : Pt) (t : TargetImage) : TargetImage :=
  match t.selected_area with
  | some area => { t with selected_area := some ⟨area.start_pos, p⟩ }
  | none => t

/-- `min_pos = area.start_pos.min(area.end_pos)` (main.rs line 148). -/
def min_pos (area : Area) : Pt := Pt.cmin area.start_pos area.end_pos

/-- `max_pos = area.start_pos.max(area.end_pos)` (main.rs line 149). -/
def max_pos (area : Area) : Pt := Pt.cmax area.start_pos area.end_pos

/-- `drag_stopped` handler (main.rs lines 138–183): when a selection is
active, recompute the preview by running the mosaic loop on a clone of the
committed image (`image.saving_image.clone()`), with the normalized
selection scaled into image space by `ratio`. -/
def dragStopped (radius : Nat) (ratio : ℚ) (t : TargetImage) : TargetImage :=
  match t.selected_area with
  | some area =>
      { t with processing_image :=
          (applyMosaic t.saving_image (Pt.scale ratio (min_pos area))
            (Pt.scale ratio (max_pos area)) radius) }
  | none => t

/-- Confirm button handler (main.rs lines 198–203), enabled only while a
selection exists: `saving_image := processing_image`, selection cleared. -/
def confirm (t : TargetImage) : TargetImage :=
  if t.selected_area.isSome then
    { t with saving_image := t.processing_image, selected_area := none }
  else t

/-- Save button handler (main.rs lines 205–214): the image value handed to
the encoder is `image.saving_image` — the committed image. -/
def savedImage (t : TargetImage) : DynamicImage := t.saving_image

/-- The spec's preview slot (§3: the preview image is "`None` when no
selection is active"), as an abstraction of the program state: the
processing image while a selection is active, `none` otherwise. -/
def preview (t : TargetImage) : Option DynamicImage :=
  if t.selected_area.isSome then some t.processing_image else none

/-! Concrete test fixtures -/

/-- A 4×4 image whose pixel colors encode their own coordinates. -/
def testImg : DynamicImage := ⟨4, 4, fun x y => ⟨x, y, 0, 255⟩⟩

/-- The 10×10 image used against the spec's edge-block property: pixel
(5,5) is red, all others black. -/
def img10 : DynamicImage :=
  ⟨10, 10, fun x y => if x = 5 ∧ y = 5 then ⟨255, 0, 0, 255⟩ else ⟨0, 0, 0, 255⟩⟩

/-- A uniform gray 4×4 image. -/
def testImg2 : DynamicImage := ⟨4, 4, fun _ _ => ⟨7, 7, 7, 255⟩⟩

/-- An editor state with an active selection and a preview distinct from
the committed image. -/
def testState : TargetImage :=
  ⟨testImg, testImg2, some ⟨((1 : ℚ), (1 : ℚ)), ((2 : ℚ), (2 : ℚ))⟩⟩

/-! The loop invariant

During the double loop, (1) every cache entry holds the base image's color
at its key, and (2) every block-center pixel of the image under rewrite
still has its base color (center pixels are categorically excluded from the
overwrite branch). -/

def MosaicInv (base : DynamicImage) (radius diameter : Nat)
    (s : DynamicImage × Cache) : Prop :=
  (∀ cx cy c, s.2 (cx, cy) = some c → c = base.pix cx cy) ∧
  (∀ cx cy, cx % diameter = radius → cy % diameter = radius →
    s.1.pix cx cy = base.pix cx cy)

/-! Generic fold machinery -/

/-- A property preserved by every step of a fold holds at the end. -/
theorem foldl_preserve {α β : Type} {f : α → β → α} {P : α → Prop} :
    ∀ (l : List β) (s : α), (∀ s' b, b ∈ l → P s' → P (f s' b)) → P s → P (l.foldl f s)
  | [], _, _, hs => hs
  | b :: l, s, h, hs =>
      foldl_preserve l (f s b)
        (fun s' b' hb' => h s' b' (List.mem_cons_of_mem _ hb'))
        (h s b (List.mem_cons_self _ _) hs)

/-- Reach-and-keep: if `P` is preserved up to a distinguished element `b0`,
processing `b0` establishes `Q`, and `Q` is preserved afterwards, then `Q`
holds after folding the whole list. -/
theorem foldl_reach {α β : Type} {f : α → β → α} {P Q : α → Prop}
    (l1 : List β) (b0 : β) (l2 : List β) (s : α)
    (hP : ∀ s' b, b ∈ l1 → P s' → P (f s' b)) (hs : P s)
    (hhit : ∀ s', P s' → Q (f s' b0))
    (hQ : ∀ s' b, b ∈ l2 → Q s' → Q (f s' b)) :
    Q ((l1 ++ b0 :: l2).foldl f s) := by
  rw [List.foldl_append, List.foldl_cons]
  exact foldl_preserve l2 _ hQ (hhit _ (foldl_preserve l1 s hP hs))

/-- Splitting `List.range` at an interior element. -/
theorem range_split {n k : Nat} (h : k < n) :
    List.range n = List.range k ++ k :: List.range' (k + 1) (n - k - 1) := by
  have h0 : List.range n = List.range k ++ List.range' k (n - k) := by
    rw [List.range_eq_range', List.range_eq_range']
    have h2 := List.range'_append 0 k (n - k) 1
    simp only [Nat.zero_add, Nat.one_mul] at h2
    rw [Nat.sub_add_cancel (Nat.le_of_lt h)] at h2
    exact h2.symm
  rw [h0]
  congr 1
  rw [show n - k = (n - k - 1) + 1 by omega]
  rw [List.range'_succ]
  simp

/-! Arithmetic of the block grid -/

/-- The computed center of the block containing coordinate `n` is itself a
center coordinate: `(n − n % diameter + radius) % diameter = radius`. -/
theorem centerCoord_mod {radius diameter : Nat} (h : radius < diameter) (n : Nat) :
    centerCoord diameter radius n % diameter = radius := by
  have h1 := Nat.mod_add_div n diameter
  have h2 : centerCoord diameter radius n = diameter * (n / diameter) + radius := by
    unfold centerCoord; omega
  rw [h2, Nat.mul_add_mod, Nat.mod_eq_of_lt h]

/-- A coordinate that is itself a center is its own block center. -/
theorem centerCoord_of_center {radius diameter : Nat} {n : Nat}
    (h : n % diameter = radius) : centerCoord diameter radius n = n := by
  unfold centerCoord
  have := Nat.mod_le n diameter
  omega

theorem putPixel_pix (img : DynamicImage) (x y : Nat) (c : Rgba) (i j : Nat) :
    (img.putPixel x y c).pix i j = if i = x ∧ j = y then c else img.pix i j := rfl

theorem inv_init (base : DynamicImage) (radius diameter : Nat) :
    MosaicInv base radius diameter (base, Cache.empty) :=
  ⟨fun cx cy c h => by simp [Cache.empty] at h, fun _ _ _ _ => rfl⟩

/-- The loop body never changes the dimensions. -/
theorem mosaicStep_dims (W H radius diameter : Nat) (minp maxp : Pt)
    (s : DynamicImage × Cache) (x y : Nat) :
    (mosaicStep W H radius diameter minp maxp s x y).1.width = s.1.width ∧
      (mosaicStep W H radius diameter minp maxp s x y).1.height = s.1.height := by
  simp only [mosaicStep]
  split
  · split
    · split
      · split <;> exact ⟨rfl, rfl⟩
      · exact ⟨rfl, rfl⟩
    · exact ⟨rfl, rfl⟩
  · exact ⟨rfl, rfl⟩

/-- The loop body writes no pixel other than `(x, y)`. -/
theorem mosaicStep_pix_ne (W H radius diameter : Nat) (minp maxp : Pt)
    (s : DynamicImage × Cache) (x y x' y' : Nat) (hne : ¬(x' = x ∧ y' = y)) :
    (mosaicStep W H radius diameter minp maxp s x y).1.pix x' y' = s.1.pix x' y' := by
  simp only [mosaicStep]
  split
  · split
    · split
      · split <;> simp [putPixel_pix, hne]
      · rfl
    · rfl
  · rfl

/-- Under the invariant, the loop body sets pixel `(x, y)` to the base
image's color at the block center exactly when `writeCond` holds, and
leaves it unchanged otherwise. -/
theorem mosaicStep_pix_self {base : DynamicImage} {radius diameter : Nat}
    (hrd : radius < diameter) {s : DynamicImage × Cache}
    (hinv : MosaicInv base radius diameter s)
    (W H : Nat) (minp maxp : Pt) (x y : Nat) :
    (mosaicStep W H radius diameter minp maxp s x y).1.pix x y =
      if writeCond W H radius diameter minp maxp x y then
        base.pix (centerCoord diameter radius x) (centerCoord diameter radius y)
      else s.1.pix x y := by
  by_cases hw : writeCond W H radius diameter minp maxp x y
  · rw [if_pos hw]
    obtain ⟨hin, hnc, hbx, hby⟩ := hw
    unfold centerCoord at hbx hby ⊢
    simp only [mosaicStep]
    rw [if_pos hin, if_pos hnc, if_pos ⟨hbx, hby⟩]
    cases hc : s.2 (x - x % diameter + radius, y - y % diameter + radius) with
    | some p =>
        show (s.1.putPixel x y p).pix x y = _
        rw [putPixel_pix, if_pos (show x = x ∧ y = y from ⟨rfl, rfl⟩)]
        exact hinv.1 _ _ _ hc
    | none =>
        show (s.1.putPixel x y (s.1.pix _ _)).pix x y = _
        rw [putPixel_pix, if_pos (show x = x ∧ y = y from ⟨rfl, rfl⟩)]
        exact hinv.2 _ _ (centerCoord_mod hrd x) (centerCoord_mod hrd y)
  · rw [if_neg hw]
    simp only [mosaicStep]
    by_cases h1 : insideSel minp maxp x y
    · rw [if_pos h1]
      by_cases h2 : x % diameter ≠ radius ∨ y % diameter ≠ radius
      · rw [if_pos h2]
        by_cases h3 : x - x % diameter + radius < W ∧ y - y % diameter + radius < H
        · exact absurd ⟨h1, h2, h3.1, h3.2⟩ hw
        · rw [if_neg h3]
      · rw [if_neg h2]
    · rw [if_neg h1]

/-- The loop body preserves the invariant. -/
theorem mosaicStep_inv {base : DynamicImage} {radius diameter : Nat}
    (hrd : radius < diameter) {s : DynamicImage × Cache}
    (hinv : MosaicInv base radius diameter s)
    (W H : Nat) (minp maxp : Pt) (x y : Nat) :
    MosaicInv base radius diameter (mosaicStep W H radius diameter minp maxp s x y) := by
  simp only [mosaicStep]
  by_cases h1 : insideSel minp maxp x y
  swap
  · rw [if_neg h1]; exact hinv
  rw [if_pos h1]
  by_cases h2 : x % diameter ≠ radius ∨ y % diameter ≠ radius
  swap
  · rw [if_neg h2]; exact hinv
  rw [if_pos h2]
  by_cases h3 : x - x % diameter + radius < W ∧ y - y % diameter + radius < H
  swap
  · rw [if_neg h3]; exact hinv
  rw [if_pos h3]
  have hxy_not_center : ∀ cx cy : Nat, cx % diameter = radius → cy % diameter = radius →
      ¬(cx = x ∧ cy = y) := by
    rintro cx cy hcx hcy ⟨rfl, rfl⟩
    rcases h2 with h2 | h2
    · exact h2 hcx
    · exact h2 hcy
  cases hc : s.2 (x - x % diameter + radius, y - y % diameter + radius) with
  | some p =>
      refine ⟨hinv.1, ?_⟩
      intro cx cy hcx hcy
      rw [putPixel_pix, if_neg (hxy_not_center cx cy hcx hcy)]
      exact hinv.2 cx cy hcx hcy
  | none =>
      constructor
      · intro cx cy c hcc
        simp only [Cache.insert] at hcc
        by_cases hk : (cx, cy) = ((x - x % diameter + radius : Nat),
            (y - y % diameter + radius : Nat))
        · rw [if_pos hk] at hcc
          obtain ⟨hk1, hk2⟩ := Prod.mk.injEq .. ▸ hk
          injection hcc with hcc
          subst hk1; subst hk2
          rw [← hcc]
          exact hinv.2 _ _ (centerCoord_mod hrd x) (centerCoord_mod hrd y)
        · rw [if_neg hk] at hcc
          exact hinv.1 cx cy c hcc
      · intro cx cy hcx hcy
        rw [putPixel_pix, if_neg (hxy_not_center cx cy hcx hcy)]
        exact hinv.2 cx cy hcx hcy

/-! Column-level lemmas -/

theorem mosaicCol_inv {base : DynamicImage} {radius diameter : Nat}
    (hrd : radius < diameter) {s : DynamicImage × Cache}
    (hinv : MosaicInv base radius diameter s)
    (W H : Nat) (minp maxp : Pt) (x : Nat) :
    MosaicInv base radius diameter (mosaicCol W H radius diameter minp maxp s x) :=
  foldl_preserve _ _ (fun s' y _ hs' => mosaicStep_inv hrd hs' W H minp maxp x y) hinv

theorem mosaicCol_dims (W H radius diameter : Nat) (minp maxp : Pt)
    (s : DynamicImage × Cache) (x : Nat) :
    (mosaicCol W H radius diameter minp maxp s x).1.width = s.1.width ∧
      (mosaicCol W H radius diameter minp maxp s x).1.height = s.1.height :=
  foldl_preserve (P := fun s' => s'.1.width = s.1.width ∧ s'.1.height = s.1.height) _ _
    (fun s' y _ hs' =>
      ⟨((mosaicStep_dims W H radius diameter minp maxp s' x y).1).trans hs'.1,
        ((mosaicStep_dims W H radius diameter minp maxp s' x y).2).trans hs'.2⟩)
    ⟨rfl, rfl⟩

theorem mosaicCol_pix_ne (W H radius diameter : Nat) (minp maxp : Pt)
    (s : DynamicImage × Cache) (x x' y' : Nat) (hx : x' ≠ x) :
    (mosaicCol W H radius diameter minp maxp s x).1.pix x' y' = s.1.pix x' y' :=
  foldl_preserve (P := fun s' => s'.1.pix x' y' = s.1.pix x' y') _ _
    (fun s' y _ hs' => (mosaicStep_pix_ne W H radius diameter minp maxp s' x y x' y'
      (fun hc => hx hc.1)).trans hs') rfl

/-- Running the column at `x` sets pixel `(x, y0)` (for `y0 < H`) to the
base color of its block center exactly when `writeCond` holds. -/
theorem mosaicCol_pix_self {base : DynamicImage} {radius diameter : Nat}
    (hrd : radius < diameter) {W H : Nat} {minp maxp : Pt}
    {s : DynamicImage × Cache}
    (hinv : MosaicInv base radius diameter s) {x y0 : Nat} (hy0 : y0 < H) :
    (mosaicCol W H radius diameter minp maxp s x).1.pix x y0 =
      if writeCond W H radius diameter minp maxp x y0 then
        base.pix (centerCoord diameter radius x) (centerCoord diameter radius y0)
      else s.1.pix x y0 := by
  unfold mosaicCol
  rw [range_split hy0]
  refine foldl_reach (P := fun s' => MosaicInv base radius diameter s' ∧
      s'.1.pix x y0 = s.1.pix x y0)
    (Q := fun s' => s'.1.pix x y0 =
      if writeCond W H radius diameter minp maxp x y0 then
        base.pix (centerCoord diameter radius x) (centerCoord diameter radius y0)
      else s.1.pix x y0)
    _ _ _ _ ?_ ⟨hinv, rfl⟩ ?_ ?_
  · intro s' y hy hs'
    refine ⟨mosaicStep_inv hrd hs'.1 W H minp maxp x y, ?_⟩
    have hyne : ¬(x = x ∧ y0 = y) := by
      rintro ⟨-, rfl⟩
      exact absurd (List.mem_range.mp hy) (lt_irrefl y0)
    rw [mosaicStep_pix_ne W H radius diameter minp maxp s' x y x y0 hyne]
    exact hs'.2
  · intro s' hs'
    rw [mosaicStep_pix_self hrd hs'.1 W H minp maxp x y0, hs'.2]
  · intro s' y hy hq
    have hyne : ¬(x = x ∧ y0 = y) := by
      rintro ⟨-, rfl⟩
      have := List.mem_range'_1.mp hy
      omega
    rw [mosaicStep_pix_ne W H radius diameter minp maxp s' x y x y0 hyne]
    exact hq

/-- Running the column at `x` under the invariant leaves any pixel whose
write condition fails unchanged. -/
theorem mosaicCol_pix_stable {base : DynamicImage} {radius diameter : Nat}
    (hrd : radius < diameter) {W H : Nat} {minp maxp : Pt}
    {s : DynamicImage × Cache}
    (hinv : MosaicInv base radius diameter s) (x x0 y0 : Nat)
    (hnw : ¬ writeCond W H radius diameter minp maxp x0 y0) :
    (mosaicCol W H radius diameter minp maxp s x).1.pix x0 y0 = s.1.pix x0 y0 := by
  unfold mosaicCol
  refine (foldl_preserve (P := fun s' => MosaicInv base radius diameter s' ∧
      s'.1.pix x0 y0 = s.1.pix x0 y0) _ _ ?_ ⟨hinv, rfl⟩).2
  intro s' y _ hs'
  refine ⟨mosaicStep_inv hrd hs'.1 W H minp maxp x y, ?_⟩
  by_cases hc : x0 = x ∧ y0 = y
  · obtain ⟨rfl, rfl⟩ := hc
    rw [mosaicStep_pix_self hrd hs'.1 W H minp maxp x0 y0, if_neg hnw]
    exact hs'.2
  · rw [mosaicStep_pix_ne W H radius diameter minp maxp s' x y x0 y0 hc]
    exact hs'.2

/-! Pixel-level characterization of the engine -/

/-- Master theorem: inside the image, every pixel of the output either
carries the base color of its block center (exactly when the write
condition holds) or keeps its base color. -/
theorem applyMosaic_pix (base : DynamicImage) (minp maxp : Pt) (radius : Nat)
    {x0 y0 : Nat} (hx0 : x0 < base.width) (hy0 : y0 < base.height) :
    (applyMosaic base minp maxp radius).pix x0 y0 =
      if writeCond base.width base.height radius (radius * 2 + 1) minp maxp x0 y0 then
        base.pix (centerCoord (radius * 2 + 1) radius x0)
          (centerCoord (radius * 2 + 1) radius y0)
      else base.pix x0 y0 := by
  have hrd : radius < radius * 2 + 1 := by omega
  simp only [applyMosaic]
  rw [range_split hx0]
  refine foldl_reach
    (P := fun s' => MosaicInv base radius (radius * 2 + 1) s' ∧
      s'.1.pix x0 y0 = base.pix x0 y0)
    (Q := fun s' => s'.1.pix x0 y0 =
      if writeCond base.width base.height radius (radius * 2 + 1) minp maxp x0 y0 then
        base.pix (centerCoord (radius * 2 + 1) radius x0)
          (centerCoord (radius * 2 + 1) radius y0)
      else base.pix x0 y0)
    _ _ _ _ ?_ ⟨inv_init base radius _, rfl⟩ ?_ ?_
  · intro s' x hx hs'
    refine ⟨mosaicCol_inv hrd hs'.1 _ _ minp maxp x, ?_⟩
    have hxne : x0 ≠ x := by
      have := List.mem_range.mp hx
      omega
    rw [mosaicCol_pix_ne _ _ _ _ minp maxp s' x x0 y0 hxne]
    exact hs'.2
  · intro s' hs'
    rw [mosaicCol_pix_self hrd hs'.1 hy0, hs'.2]
  · intro s' x hx hq
    have hxne : x0 ≠ x := by
      have := List.mem_range'_1.mp hx
      omega
    rw [mosaicCol_pix_ne _ _ _ _ minp maxp s' x x0 y0 hxne]
    exact hq

/-- A pixel whose write condition fails — any pixel not strictly inside the
selection, any block-center pixel, any pixel of a block with out-of-bounds
center, and any coordinate outside the image — keeps its base color. -/
theorem applyMosaic_pix_stable (base : DynamicImage) (minp maxp : Pt) (radius : Nat)
    (x0 y0 : Nat)
    (hnw : ¬ writeCond base.width base.height radius (radius * 2 + 1) minp maxp x0 y0) :
    (applyMosaic base minp maxp radius).pix x0 y0 = base.pix x0 y0 := by
  have hrd : radius < radius * 2 + 1 := by omega
  simp only [applyMosaic]
  refine (foldl_preserve (P := fun s' => MosaicInv base radius (radius * 2 + 1) s' ∧
      s'.1.pix x0 y0 = base.pix x0 y0) _ _ ?_ ⟨inv_init base radius _, rfl⟩).2
  intro s' x _ hs'
  exact ⟨mosaicCol_inv hrd hs'.1 _ _ minp maxp x,
    (mosaicCol_pix_stable hrd hs'.1 x x0 y0 hnw).trans hs'.2⟩

/-- The engine never changes the dimensions. -/
theorem applyMosaic_dims (base : DynamicImage) (minp maxp : Pt) (radius : Nat) :
    (applyMosaic base minp maxp radius).width = base.width ∧
      (applyMosaic base minp maxp radius).height = base.height := by
  simp only [applyMosaic]
  refine foldl_preserve
    (P := fun s' : DynamicImage × Cache =>
      s'.1.width = base.width ∧ s'.1.height = base.height) _ _ ?_ ⟨rfl, rfl⟩
  intro s' x _ hs'
  exact ⟨(mosaicCol_dims _ _ _ _ _ _ s' x).1.trans hs'.1,
    (mosaicCol_dims _ _ _ _ _ _ s' x).2.trans hs'.2⟩

/-! The panic branches are unreachable -/

/-- Inside the loop ranges and under the dimension invariant, the checked
loop body never fails and agrees with the total one. -/
theorem mosaicStepChecked_eq {W H radius diameter : Nat} {minp maxp : Pt}
    {s : DynamicImage × Cache} {x y : Nat}
    (hx : x < W) (hy : y < H) (hW : s.1.width = W) (hH : s.1.height = H) :
    mosaicStepChecked W H radius diameter minp maxp s x y =
      some (mosaicStep W H radius diameter minp maxp s x y) := by
  simp only [mosaicStepChecked, mosaicStep]
  by_cases h1 : insideSel minp maxp x y
  swap
  · rw [if_neg h1, if_neg h1]
  rw [if_pos h1, if_pos h1]
  by_cases h2 : x % diameter ≠ radius ∨ y % diameter ≠ radius
  swap
  · rw [if_neg h2, if_neg h2]
  rw [if_pos h2, if_pos h2]
  by_cases h3 : x - x % diameter + radius < W ∧ y - y % diameter + radius < H
  swap
  · rw [if_neg h3, if_neg h3]
  rw [if_pos h3, if_pos h3]
  cases hc : s.2 (x - x % diameter + radius, y - y % diameter + radius) with
  | some p =>
      simp only [DynamicImage.putPixelChecked, hW, hH]
      rw [if_pos ⟨hx, hy⟩]
      rfl
  | none =>
      simp only [DynamicImage.getPixelChecked, DynamicImage.putPixelChecked, hW, hH]
      rw [if_pos ⟨h3.1, h3.2⟩]
      simp only [Option.some_bind]
      rw [if_pos ⟨hx, hy⟩]
      rfl

/-- An `Option`-threaded fold agrees with the total fold as long as each
step cannot fail on the elements actually folded. -/
theorem foldl_option_comm {α β : Type} (h : Option α → β → Option α) (f : α → β → α)
    (Pd : α → Prop) :
    ∀ (l : List β) (s : α),
      (∀ s' b, b ∈ l → Pd s' → h (some s') b = some (f s' b)) →
      (∀ s' b, b ∈ l → Pd s' → Pd (f s' b)) → Pd s →
      l.foldl h (some s) = some (l.foldl f s)
  | [], _, _, _, _ => rfl
  | b :: l, s, hfg, hP, hs => by
      rw [List.foldl_cons, List.foldl_cons, hfg s b (List.mem_cons_self _ _) hs]
      exact foldl_option_comm h f Pd l (f s b)
        (fun s' b' hb' => hfg s' b' (List.mem_cons_of_mem _ hb'))
        (fun s' b' hb' => hP s' b' (List.mem_cons_of_mem _ hb'))
        (hP s b (List.mem_cons_self _ _) hs)

/-- The checked inner loop never fails for `x < W`. -/
theorem mosaicColChecked_eq {W H radius diameter : Nat} {minp maxp : Pt}
    {s : DynamicImage × Cache} {x : Nat} (hx : x < W)
    (hW : s.1.width = W) (hH : s.1.height = H) :
    mosaicColChecked W H radius diameter minp maxp (some s) x =
      some (mosaicCol W H radius diameter minp maxp s x) := by
  unfold mosaicColChecked mosaicCol
  refine foldl_option_comm _ _
    (fun s' : DynamicImage × Cache => s'.1.width = W ∧ s'.1.height = H)
    _ s ?_ ?_ ⟨hW, hH⟩
  · intro s' y hy hs'
    show mosaicStepChecked W H radius diameter minp maxp s' x y = _
    exact mosaicStepChecked_eq hx (List.mem_range.mp hy) hs'.1 hs'.2
  · intro s' y hy hs'
    exact ⟨(mosaicStep_dims W H radius diameter minp maxp s' x y).1.trans hs'.1,
      (mosaicStep_dims W H radius diameter minp maxp s' x y).2.trans hs'.2⟩

/-- The checked engine never fails: every `put_pixel` target and every
`get_pixel` center is in bounds. -/
theorem applyMosaicChecked_eq (base : DynamicImage) (minp maxp : Pt) (radius : Nat) :
    applyMosaicChecked base minp maxp radius =
      some (applyMosaic base minp maxp radius) := by
  have hcomm := foldl_option_comm
    (mosaicColChecked base.width base.height radius (radius * 2 + 1) minp maxp)
    (mosaicCol base.width base.height radius (radius * 2 + 1) minp maxp)
    (fun s' : DynamicImage × Cache =>
      s'.1.width = base.width ∧ s'.1.height = base.height)
    (List.range base.width) (base, Cache.empty)
    (fun s' x hx hs' => mosaicColChecked_eq (List.mem_range.mp hx) hs'.1 hs'.2)
    (fun s' x hx hs' => ⟨(mosaicCol_dims _ _ _ _ _ _ s' x).1.trans hs'.1,
      (mosaicCol_dims _ _ _ _ _ _ s' x).2.trans hs'.2⟩)
    ⟨rfl, rfl⟩
  simp only [applyMosaicChecked, applyMosaic]
  rw [hcomm]
  rfl

/-! The claims -/

/-- C1. For every base image, selection rectangle (min, max in image
space) and radius, the mosaic recompute produces an image with exactly the
base image's width and height, and every pixel `(x, y)` that is not
strictly inside the selection — not
`((x,y) − min > 0 ∧ max − (x,y) > 0)` componentwise, including pixels
exactly on the rectangle boundary — keeps its original color. -/
theorem C1_dims_and_outside_preserved (base : DynamicImage) (minp maxp : Pt)
    (radius : Nat) :
    (applyMosaic base minp maxp radius).width = base.width ∧
    (applyMosaic base minp maxp radius).height = base.height ∧
    ∀ x y : Nat, ¬ insideSel minp maxp x y →
      (applyMosaic base minp maxp radius).pix x y = base.pix x y :=
  ⟨(applyMosaic_dims base minp maxp radius).1,
   (applyMosaic_dims base minp maxp radius).2,
   fun x y hout =>
     applyMosaic_pix_stable base minp maxp radius x y (fun hw => hout hw.1)⟩

/-- Witness for C1: the boundary pixel (1,1) of the selection
min = (1,1), max = (3,3) is preserved on the 4×4 test image. -/
theorem C1_witness :
    (¬ insideSel ((1 : ℚ), (1 : ℚ)) ((3 : ℚ), (3 : ℚ)) 1 1) ∧
    (applyMosaic testImg ((1 : ℚ), (1 : ℚ)) ((3 : ℚ), (3 : ℚ)) 2).pix 1 1 =
      testImg.pix 1 1 :=
  ⟨by decide,
   (C1_dims_and_outside_preserved testImg ((1 : ℚ), (1 : ℚ)) ((3 : ℚ), (3 : ℚ)) 2).2.2
     1 1 (by decide)⟩

/-- C2. For every base image, selection, radius in 1..=20, and every
block center `(cx, cy)` (i.e. `cx % diameter = radius` and
`cy % diameter = radius` with `diameter = 2·radius + 1`) lying within
image bounds, the output pixel at the center equals the input pixel:
block centers are never overwritten. -/
theorem C2_center_preservation (base : DynamicImage) (minp maxp : Pt)
    (radius : Nat) (h1 : 1 ≤ radius) (h20 : radius ≤ 20) (cx cy : Nat)
    (hcx : cx % (radius * 2 + 1) = radius) (hcy : cy % (radius * 2 + 1) = radius)
    (hbx : cx < base.width) (hby : cy < base.height) :
    (applyMosaic base minp maxp radius).pix cx cy = base.pix cx cy :=
  applyMosaic_pix_stable base minp maxp radius cx cy
    (fun hw => by
      rcases hw.2.1 with h | h
      · exact h hcx
      · exact h hcy)

/-- Witness for C2: radius 1, block center (1,1) of the 4×4 test image,
with a selection covering the whole image. -/
theorem C2_witness :
    (1 ≤ 1 ∧ 1 ≤ 20 ∧ 1 % (1 * 2 + 1) = 1 ∧ 1 < testImg.width ∧
      1 < testImg.height) ∧
    (applyMosaic testImg ((-1 : ℚ), (-1 : ℚ)) ((10 : ℚ), (10 : ℚ)) 1).pix 1 1 =
      testImg.pix 1 1 :=
  ⟨by decide,
   C2_center_preservation testImg ((-1 : ℚ), (-1 : ℚ)) ((10 : ℚ), (10 : ℚ)) 1
     (by decide) (by decide) 1 1 (by decide) (by decide) (by decide) (by decide)⟩

/-- C3, counterexample. For width 10, height 10, radius 5
(diameter 11), the claim is false: the computed block center of pixel
(1,1) is (5,5), which lies inside `[0,10)` (not outside), and the mosaic
over a selection covering the whole image does change the image — pixel
(1,1) takes the color of (5,5). -/
theorem C3_counterexample :
    centerCoord (5 * 2 + 1) 5 1 < 10 ∧
    (applyMosaic img10 ((-1 : ℚ), (-1 : ℚ)) ((10 : ℚ), (10 : ℚ)) 5).pix 1 1 ≠
      img10.pix 1 1 := by
  refine ⟨by decide, ?_⟩
  rw [applyMosaic_pix img10 ((-1 : ℚ), (-1 : ℚ)) ((10 : ℚ), (10 : ℚ)) 5
    (by decide) (by decide)]
  rw [if_pos (by decide :
    writeCond img10.width img10.height 5 (5 * 2 + 1) ((-1 : ℚ), (-1 : ℚ))
      ((10 : ℚ), (10 : ℚ)) 1 1)]
  decide

/-- C3, amended. For an image of width 10 and height 10 and radius 10
(diameter 21), every pixel's computed block-center
(`center = n − (n mod 21) + 10`) lies outside the range `[0,10)`, so
applying the mosaic with any selection covering the whole image returns
the original image unchanged. -/
theorem C3_amended_edge_block_noop (base : DynamicImage)
    (hW : base.width = 10) (hH : base.height = 10) (minp maxp : Pt)
    (hcover : ∀ x, x < 10 → ∀ y, y < 10 → insideSel minp maxp x y) :
    (∀ n, n < 10 → ¬ (centerCoord (10 * 2 + 1) 10 n < 10)) ∧
    (applyMosaic base minp maxp 10).width = base.width ∧
    (applyMosaic base minp maxp 10).height = base.height ∧
    ∀ x y : Nat, (applyMosaic base minp maxp 10).pix x y = base.pix x y := by
  have hc : ∀ n : Nat, ¬ (centerCoord (10 * 2 + 1) 10 n < 10) := by
    intro n
    unfold centerCoord
    omega
  refine ⟨fun n _ => hc n, (applyMosaic_dims base minp maxp 10).1,
    (applyMosaic_dims base minp maxp 10).2, ?_⟩
  intro x y
  exact applyMosaic_pix_stable base minp maxp 10 x y (fun hw => hc x (hW ▸ hw.2.2.1))

/-- Witness for C3 (amended) on the concrete 10×10 image with a selection
strictly containing all of `[0,10) × [0,10)`. -/
theorem C3_amended_witness :
    (img10.width = 10 ∧ img10.height = 10 ∧
      ∀ x, x < 10 → ∀ y, y < 10 →
        insideSel ((-1 : ℚ), (-1 : ℚ)) ((10 : ℚ), (10 : ℚ)) x y) ∧
    ∀ x y : Nat,
      (applyMosaic img10 ((-1 : ℚ), (-1 : ℚ)) ((10 : ℚ), (10 : ℚ)) 10).pix x y =
        img10.pix x y :=
  ⟨⟨rfl, rfl, by decide⟩,
   (C3_amended_edge_block_noop img10 rfl rfl ((-1 : ℚ), (-1 : ℚ))
     ((10 : ℚ), (10 : ℚ)) (by decide)).2.2.2⟩

/-- C4. For a zero-area selection rectangle with min = max, no pixel
satisfies all four strict inequalities, so the mosaic transform returns an
image identical to its input, for every base image and radius. -/
theorem C4_zero_area_identity (base : DynamicImage) (m : Pt) (radius : Nat) :
    (∀ x y : Nat, ¬ insideSel m m x y) ∧
    (applyMosaic base m m radius).width = base.width ∧
    (applyMosaic base m m radius).height = base.height ∧
    ∀ x y : Nat, (applyMosaic base m m radius).pix x y = base.pix x y := by
  have hni : ∀ x y : Nat, ¬ insideSel m m x y := by
    rintro x y ⟨h1, -, h3, -⟩
    linarith
  exact ⟨hni, (applyMosaic_dims base m m radius).1,
    (applyMosaic_dims base m m radius).2,
    fun x y => applyMosaic_pix_stable base m m radius x y (fun hw => hni x y hw.1)⟩

/-- C5. The preview is always recomputed from the committed image,
never from a previous preview: after a first completed drag (producing
preview `P1`) and a second completed drag with corners `p2`, `q2`, the
resulting preview equals `apply` of the *committed* image under the second
selection, and the committed image itself is untouched. -/
theorem C5_repreview_from_committed (t : TargetImage) (radius : Nat) (ratio : ℚ)
    (p1 q1 p2 q2 : Pt) :
    (dragStopped radius ratio (dragged q2 (dragStarted p2
        (dragStopped radius ratio
          (dragged q1 (dragStarted p1 t)))))).processing_image =
      applyMosaic t.saving_image (Pt.scale ratio (Pt.cmin p2 q2))
        (Pt.scale ratio (Pt.cmax p2 q2)) radius ∧
    (dragStopped radius ratio (dragged q2 (dragStarted p2
        (dragStopped radius ratio
          (dragged q1 (dragStarted p1 t)))))).saving_image = t.saving_image :=
  ⟨rfl, rfl⟩

/-- C6. The memoized sampling is equivalent to unmemoized sampling:
every pixel actually rewritten by the transform receives the *original*
base image's color at its block center, regardless of the x-major, y-inner
iteration order — the cache never supplies a color differing from a direct
read of the original image at the center. -/
theorem C6_memoized_sampling (base : DynamicImage) (minp maxp : Pt)
    (radius : Nat) (x y : Nat) (hx : x < base.width) (hy : y < base.height)
    (hw : writeCond base.width base.height radius (radius * 2 + 1) minp maxp x y) :
    (applyMosaic base minp maxp radius).pix x y =
      base.pix (centerCoord (radius * 2 + 1) radius x)
        (centerCoord (radius * 2 + 1) radius y) := by
  rw [applyMosaic_pix base minp maxp radius hx hy, if_pos hw]

/-- Witness for C6: pixel (0,0) of the 4×4 test image is rewritten (its
center is (1,1)) and receives the base color of (1,1). -/
theorem C6_witness :
    (0 < testImg.width ∧ 0 < testImg.height ∧
      writeCond testImg.width testImg.height 1 (1 * 2 + 1) ((-1 : ℚ), (-1 : ℚ))
        ((10 : ℚ), (10 : ℚ)) 0 0) ∧
    (applyMosaic testImg ((-1 : ℚ), (-1 : ℚ)) ((10 : ℚ), (10 : ℚ)) 1).pix 0 0 =
      testImg.pix (centerCoord (1 * 2 + 1) 1 0) (centerCoord (1 * 2 + 1) 1 0) :=
  ⟨⟨by decide, by decide, by decide⟩,
   C6_memoized_sampling testImg ((-1 : ℚ), (-1 : ℚ)) ((10 : ℚ), (10 : ℚ)) 1 0 0
     (by decide) (by decide) (by decide)⟩

/-- C7. On confirm with an active selection (the button is enabled only
then), the state machine performs `committed := preview`, the preview slot
becomes `none`, and the selection is cleared — the Idle state. -/
theorem C7_confirm_commits (t : TargetImage) (p : DynamicImage)
    (hp : preview t = some p) :
    (confirm t).saving_image = p ∧
    preview (confirm t) = none ∧
    (confirm t).selected_area = none := by
  unfold preview at hp
  by_cases hs : t.selected_area.isSome
  · rw [if_pos hs] at hp
    injection hp with hp
    unfold confirm
    rw [if_pos hs]
    exact ⟨hp, rfl, rfl⟩
  · rw [if_neg hs] at hp
    exact absurd hp (by simp)

/-- Witness for C7 on a concrete state with an active selection. -/
theorem C7_witness :
    preview testState = some testImg2 ∧
    ((confirm testState).saving_image = testImg2 ∧
      preview (confirm testState) = none ∧
      (confirm testState).selected_area = none) :=
  ⟨rfl, C7_confirm_commits testState testImg2 rfl⟩

/-- C8. The save action always persists the committed image and never
the preview: the image value passed to the encoder equals `saving_image`,
is unaffected by the preview and selection fields, and is unchanged by a
drag-stop recompute (a pending unconfirmed preview). -/
theorem C8_save_persists_committed (t : TargetImage) :
    savedImage t = t.saving_image ∧
    (∀ (pimg : DynamicImage) (a : Option Area),
      savedImage { t with processing_image := pimg, selected_area := a } =
        t.saving_image) ∧
    (∀ (radius : Nat) (ratio : ℚ),
      savedImage (dragStopped radius ratio t) = savedImage t) :=
  ⟨rfl, fun _ _ => rfl, fun radius ratio => by
    unfold savedImage dragStopped
    cases t.selected_area <;> rfl⟩

/-- C9. The normalized selection used by the transform is the
componentwise min/max of the drag corners, hence `min.x ≤ max.x` and
`min.y ≤ max.y` always hold by construction, with no validation step. -/
theorem C9_normalized_min_le_max (a : Area) :
    min_pos a = Pt.cmin a.start_pos a.end_pos ∧
    max_pos a = Pt.cmax a.start_pos a.end_pos ∧
    (min_pos a).1 ≤ (max_pos a).1 ∧ (min_pos a).2 ≤ (max_pos a).2 := by
  refine ⟨rfl, rfl, ?_, ?_⟩
  · show min a.start_pos.1 a.end_pos.1 ≤ max a.start_pos.1 a.end_pos.1
    exact min_le_max
  · show min a.start_pos.2 a.end_pos.2 ≤ max a.start_pos.2 a.end_pos.2
    exact min_le_max

/-- C10. Every pixel access inside the mosaic loop is in bounds: with
the panicking accesses surfaced as `Option` failures, the checked engine
never fails and agrees with the total one, for every image, selection,
and radius ≥ 1. -/
theorem C10_panic_free (base : DynamicImage) (minp maxp : Pt) (radius : Nat)
    (h1 : 1 ≤ radius) :
    applyMosaicChecked base minp maxp radius =
      some (applyMosaic base minp maxp radius) :=
  applyMosaicChecked_eq base minp maxp radius

/-- Witness for C10 at the 4×4 test image and radius 1. -/
theorem C10_witness :
    1 ≤ 1 ∧
    applyMosaicChecked testImg ((-1 : ℚ), (-1 : ℚ)) ((10 : ℚ), (10 : ℚ)) 1 =
      some (applyMosaic testImg ((-1 : ℚ), (-1 : ℚ)) ((10 : ℚ), (10 : ℚ)) 1) :=
  ⟨by decide,
   C10_panic_free testImg ((-1 : ℚ), (-1 : ℚ)) ((10 : ℚ), (10 : ℚ)) 1 (by decide)⟩
